/-
  Verification of the resource-allocation core and utility helpers of the
  mesos repository fragment (src/simple_allocator.hpp, src/common/utils.hpp).

  The allocation engine itself (SimpleAllocator member function bodies) is
  declared in src/simple_allocator.hpp but its implementation file is not
  among the visible sources; the engine is therefore modelled from the
  design document (sections 3 and 4), faithful to its words: identities are
  numbers, resource quantities are integers, and each event handler is a
  pure state transition followed, when the design says so, by an
  offer-generation pass.
-/
import Mathlib

/-- Shallow embedding of mesos Try.T (common/try.hpp): either a value or an
error message. -/
inductive Try (α : Type) where
  | some (v : α) : Try α
  | error (message : String) : Try α
deriving DecidableEq

/-- Try.isError, true exactly on the error constructor. -/
def Try.isError {α : Type} : Try α → Bool
  | Try.some _ => false
  | Try.error _ => true

/-- Shallow embedding of boost lexical_cast for a numeric target type: the
underlying conversion is a parameter (boost is outside this repository), and
a failed conversion raises the bad_lexical_cast exception, modelled as the
error branch of Except. -/
def lexical_cast {α : Type} (conv : String → Option α) (s : String) : Except Unit α :=
  match conv s with
  | Option.some v => Except.ok v
  | Option.none => Except.error ()

/-- Embedding of utils::numify (src/common/utils.hpp lines 107-118): call
lexical_cast inside a try block; on bad_lexical_cast return Try.error with a
formatted message. The Lean function returns Try and not Except: the catch
clause swallows the only exception lexical_cast can raise, so no exception
reaches the caller. -/
def numify {α : Type} (conv : String → Option α) (s : String) : Try α :=
  match lexical_cast conv s with
  | Except.ok v => Try.some v
  | Except.error _ =>
      Try.error ("Failed to convert '" ++ s ++ "' to number")

/-- Shallow embedding of mesos Result.T (common/result.hpp) at type Bool,
as returned by utils::protobuf::read: a value, none, or an error message. -/
inductive PResult where
  | ok (b : Bool) : PResult
  | none : PResult
  | error (message : String) : PResult
deriving DecidableEq

/-- A file descriptor open for reading: the byte contents of the file and
the current read offset. -/
structure Fd where
  bytes : List Nat
  offset : Nat
deriving DecidableEq

/-- POSIX read(fd, buf, n): returns up to n bytes starting at the current
offset and advances the offset by the number of bytes actually read. -/
def readBytes (fd : Fd) (n : Nat) : List Nat × Fd :=
  let chunk := (fd.bytes.drop fd.offset).take n
  (chunk, { fd with offset := fd.offset + chunk.length })

/-- The 4-byte little-endian size prefix as a number (the uint32 the code
reads into memory). -/
def decodeU32 (b : List Nat) : Nat :=
  match b with
  | [b0, b1, b2, b3] => b0 + 256 * b1 + 65536 * b2 + 16777216 * b3
  | _ => 0

/-- Embedding of utils::protobuf::read (src/common/utils.hpp lines 833-906):
read a 4-byte size, reject sizes over 10 MB (resetting the offset), read the
payload, and parse it. Protobuf parsing is a parameter (the protobuf library
is outside this repository). Short reads return Result(false) as in the
source; end of file returns none. -/
def protobuf_read (parse : List Nat → Bool) (fd : Fd) : PResult × Fd :=
  let offset := fd.offset
  let r4 := readBytes fd 4
  if r4.1.length = 0 then (PResult.none, r4.2)
  else if r4.1.length ≠ 4 then (PResult.ok false, r4.2)
  else
    let size := decodeU32 r4.1
    if size > 10 * 1024 * 1024 then
      (PResult.error "Size > 10 MB, possible corruption detected",
       { r4.2 with offset := offset })
    else
      let rd := readBytes r4.2 size
      if rd.1.length = 0 then (PResult.none, rd.2)
      else if rd.1.length ≠ size then (PResult.ok false, rd.2)
      else if parse rd.1 then (PResult.ok true, rd.2)
      else (PResult.error "Failed to parse protobuf",
            { rd.2 with offset := offset })

/-- Outcome of one ::mkdir system call on a path: success, failure with
errno EEXIST, or failure with any other errno. -/
inductive MkdirOutcome where
  | ok : MkdirOutcome
  | eexist : MkdirOutcome
  | err : MkdirOutcome
deriving DecidableEq

/-- Modelled from the spec: strings::split (common/strings.hpp) is not among
the visible sources; the design document treats string utilities as plumbing
with their usual meaning, so split on the delimiter dropping empty tokens,
which is what the mesos tokenizer does. -/
def splitTokens (s : String) : List String :=
  (s.splitOn "/").filter (fun t => t ≠ "")

/-- The successive path arguments handed to ::mkdir by the loop in
utils::os::mkdir: each token appended to the accumulated path. -/
def mkdirPrefixes : List String → String → List String
  | [], _ => []
  | token :: rest, path =>
      (path ++ token) :: mkdirPrefixes rest (path ++ token ++ "/")

/-- The loop body of utils::os::mkdir: create each accumulated prefix,
failing only when ::mkdir fails with an errno other than EEXIST. -/
def mkdirLoop (sys : String → MkdirOutcome) : List String → String → Bool
  | [], _ => true
  | token :: rest, path =>
      let next := path ++ token
      if sys next = MkdirOutcome.err then false
      else mkdirLoop sys rest (next ++ "/")

/-- Embedding of utils::os::mkdir (src/common/utils.hpp lines 367-392):
split the directory on slashes, keep a leading slash for absolute paths, and
mkdir each successive prefix, tolerating EEXIST. The outcome of each system
call is a parameter sys (the state of the file system). -/
def mkdir (sys : String → MkdirOutcome) (directory : String) : Bool :=
  let tokens := splitTokens directory
  let path := if directory.startsWith "/" then "/" else ""
  mkdirLoop sys tokens path

/-- An outstanding resource offer: identity, the framework (tenant) it was
made to, the slave (node) whose capacity it carves, and the resource slice.
Modelled from the spec: section 3, Offer. -/
structure SlotOffer where
  oid : Nat
  framework : Nat
  slave : Nat
  slice : Int
deriving DecidableEq

/-- A task consuming resources on a slave. Modelled from the spec:
section 4.4, taskRemoved. -/
structure TaskInfo where
  slave : Nat
  slice : Int
deriving DecidableEq

/-- Why an offer came back. Modelled from the spec: section 4.4,
offerReturned. -/
inductive OfferReturnReason where
  | decline : OfferReturnReason
  | rescind : OfferReturnReason
deriving DecidableEq

/-- Modelled from the spec: the allocator state of sections 3 and 4 — the
ledger view (slaves with total, free and task-consumed capacity), the active
frameworks in registration order, the per-slave refusal sets, the
outstanding offers, a fresh-offer-identity counter and the round-robin
rotation pointer of the Allocation Orderer. -/
structure AllocatorState where
  slaves : List Nat
  total : Nat → Int
  free : Nat → Int
  consumed : Nat → Int
  frameworks : List Nat
  refusers : Nat → List Nat
  offers : List SlotOffer
  nextOfferId : Nat
  rotation : Nat

/-- Pointwise update of a function at one key. -/
def fupd {α : Type} (f : Nat → α) (n : Nat) (v : α) : Nat → α :=
  fun m => if m = n then v else f m

/-- Sum of the resource slices of a list of offers. -/
def sumSlices (l : List SlotOffer) : Int :=
  (l.map (fun o => o.slice)).sum

/-- Resources held by the outstanding offers carved from slave n. -/
def offeredOn (s : AllocatorState) (n : Nat) : Int :=
  sumSlices (s.offers.filter (fun o => o.slave == n))

/-- Modelled from the spec: section 4.1, allRefused — true iff the refusal
set is a superset of all currently active tenants. -/
def allRefused (ref : List Nat) (fws : List Nat) : Bool :=
  fws.all (fun f => decide (f ∈ ref))

/-- Modelled from the spec: section 4.2, the Allocation Orderer under the
minimal strict round-robin policy — the active frameworks rotated by the
rotation pointer, reduced modulo the number of frameworks so that removing
or adding a tenant cannot push the pointer out of range. -/
def getAllocationOrdering (fws : List Nat) (rotation : Nat) : List Nat :=
  fws.rotate (rotation % fws.length)

/-- First tenant of the ordering that is not filtered by the refusal set,
together with its position in the ordering. -/
def pickFirst : List Nat → List Nat → Option (Nat × Nat)
  | [], _ => Option.none
  | t :: rest, ref =>
      if t ∈ ref then
        match pickFirst rest ref with
        | Option.none => Option.none
        | Option.some (u, j) => Option.some (u, j + 1)
      else Option.some (t, 0)

/-- The refusal set the offer-generation pass actually filters with: empty
when every active tenant has refused the slave (the all-refused clear of
section 4.1), otherwise the recorded set. -/
def effectiveRefusers (st : AllocatorState) (n : Nat) : List Nat :=
  if allRefused (st.refusers n) st.frameworks then [] else st.refusers n

/-- Modelled from the spec: one slave of the offer-generation pass of
section 4.4 — skip slaves without free capacity; clear the refusal set when
every active tenant has refused; offer the entire current free capacity to
the first unfiltered tenant in the allocation ordering and advance the
rotation pointer past that tenant. -/
def passNode (st : AllocatorState) (n : Nat) : AllocatorState :=
  if st.free n ≤ 0 then st
  else
    match pickFirst (getAllocationOrdering st.frameworks st.rotation)
        (effectiveRefusers st n) with
    | Option.none => { st with refusers := fupd st.refusers n (effectiveRefusers st n) }
    | Option.some (t, j) =>
        { st with
          free := fupd st.free n 0,
          offers := st.offers ++ [⟨st.nextOfferId, t, n, st.free n⟩],
          nextOfferId := st.nextOfferId + 1,
          refusers := fupd st.refusers n (effectiveRefusers st n),
          rotation := st.rotation + j + 1 }

/-- Modelled from the spec: SimpleAllocator::makeNewOffers — the full
offer-generation pass over all slaves. -/
def makeNewOffers (st : AllocatorState) : AllocatorState :=
  st.slaves.foldl passNode st

/-- The engine events of section 4.4, with the source member-function names
of SimpleAllocator (frameworks are tenants, slaves are nodes). -/
inductive Event where
  | frameworkAdded (f : Nat) : Event
  | frameworkRemoved (f : Nat) : Event
  | slaveAdded (n : Nat) (cap : Int) : Event
  | slaveRemoved (n : Nat) : Event
  | taskRemoved (t : TaskInfo) : Event
  | offerReturned (o : SlotOffer) (reason : OfferReturnReason) (left : Int) : Event
  | offersRevived (f : Nat) : Event
  | timerTick : Event
deriving DecidableEq

/-- Modelled from the spec: the preconditions column of the event table in
section 4.4. -/
def precond : Event → AllocatorState → Bool
  | Event.frameworkAdded f, s => !(decide (f ∈ s.frameworks))
  | Event.frameworkRemoved f, s => decide (f ∈ s.frameworks)
  | Event.slaveAdded n cap, s => !(decide (n ∈ s.slaves)) && decide (0 ≤ cap)
  | Event.slaveRemoved n, s => decide (n ∈ s.slaves)
  | Event.taskRemoved t, s =>
      decide (t.slave ∈ s.slaves) && decide (0 < t.slice) &&
      decide (t.slice ≤ s.consumed t.slave)
  | Event.offerReturned o _ left, s =>
      decide (o ∈ s.offers) && decide (0 ≤ left) && decide (left ≤ o.slice)
  | Event.offersRevived f, s => decide (f ∈ s.frameworks)
  | Event.timerTick, _ => true

/-- Insert a framework into a refusal set unless already present
(recordRefusal of section 4.1). -/
def insertRefuser (f : Nat) (l : List Nat) : List Nat :=
  if f ∈ l then l else l ++ [f]

/-- Modelled from the spec: the effects column of the event table in
section 4.4, without the triggered offer-generation pass. A declined offer
returns the unused portion to free capacity, books the used portion as task
consumption, and records a refusal; a rescinded offer returns the full
slice with no refusal. Removing a framework returns its outstanding offers
to the slaves free capacity, clears the refusal sets of those slaves and
drops the framework from every refusal set. -/
def applyEvent : Event → AllocatorState → AllocatorState
  | Event.frameworkAdded f, s =>
      { s with frameworks := s.frameworks ++ [f] }
  | Event.frameworkRemoved f, s =>
      let mine := s.offers.filter (fun o => o.framework == f)
      { s with
        frameworks := s.frameworks.erase f,
        offers := s.offers.filter (fun o => !(o.framework == f)),
        free := fun n =>
          s.free n + sumSlices (mine.filter (fun o => o.slave == n)),
        refusers := fun n =>
          if mine.any (fun o => o.slave == n) then []
          else (s.refusers n).erase f }
  | Event.slaveAdded n cap, s =>
      { s with
        slaves := s.slaves ++ [n],
        total := fupd s.total n cap,
        free := fupd s.free n cap,
        consumed := fupd s.consumed n 0,
        refusers := fupd s.refusers n [] }
  | Event.slaveRemoved n, s =>
      { s with
        slaves := s.slaves.filter (fun m => !(m == n)),
        offers := s.offers.filter (fun o => !(o.slave == n)),
        refusers := fupd s.refusers n [] }
  | Event.taskRemoved t, s =>
      { s with
        free := fupd s.free t.slave (s.free t.slave + t.slice),
        consumed := fupd s.consumed t.slave (s.consumed t.slave - t.slice),
        refusers := fupd s.refusers t.slave [] }
  | Event.offerReturned o reason left, s =>
      { s with
        offers := s.offers.erase o,
        free := fupd s.free o.slave
          (s.free o.slave +
            (if reason = OfferReturnReason.decline then left else o.slice)),
        consumed :=
          if reason = OfferReturnReason.decline then
            fupd s.consumed o.slave (s.consumed o.slave + (o.slice - left))
          else s.consumed,
        refusers :=
          if reason = OfferReturnReason.decline then
            fupd s.refusers o.slave (insertRefuser o.framework (s.refusers o.slave))
          else s.refusers }
  | Event.offersRevived f, s =>
      { s with refusers := fun n => (s.refusers n).erase f }
  | Event.timerTick, s => s

/-- Modelled from the spec: which rows of the event table in section 4.4
say "trigger offer-generation pass". -/
def triggersPass : Event → Bool
  | Event.frameworkRemoved _ => false
  | Event.slaveRemoved _ => false
  | _ => true

/-- One engine step: a precondition violation is rejected without touching
state (section 7); otherwise the effects are applied and, for the rows that
say so, an offer-generation pass runs. -/
def step (e : Event) (s : AllocatorState) : AllocatorState :=
  if precond e s then
    if triggersPass e then makeNewOffers (applyEvent e s)
    else applyEvent e s
  else s

/-- The fresh allocator: no slaves, no frameworks, no offers. -/
def initState : AllocatorState :=
  { slaves := [], total := fun _ => 0, free := fun _ => 0,
    consumed := fun _ => 0, frameworks := [], refusers := fun _ => [],
    offers := [], nextOfferId := 0, rotation := 0 }

/-- The state after a finite sequence of engine events from the fresh
allocator. -/
def runEvents (es : List Event) : AllocatorState :=
  es.foldl (fun s e => step e s) initState

/-- The reachable-state invariant: conservation on every slave, free and
consumed capacity non-negative, and every outstanding offer carved from a
live slave with a positive slice. -/
def EngineInv (s : AllocatorState) : Prop :=
  (∀ n ∈ s.slaves, s.free n + offeredOn s n + s.consumed n = s.total n) ∧
  (∀ n ∈ s.slaves, 0 ≤ s.free n) ∧
  (∀ n ∈ s.slaves, 0 ≤ s.consumed n) ∧
  (∀ o ∈ s.offers, o.slave ∈ s.slaves ∧ 0 < o.slice)

/-- Bookkeeping carried through an offer-generation pass started at state
u, for one slave M and one tenant T: the framework list is untouched, the
refusal set of M is either still the original one or was cleared because
every active tenant had refused, and any offer of M to T created since the
start of the pass certifies that T was unfiltered at the start or that the
all-refused clear fired. -/
def RefInv (u : AllocatorState) (M T : Nat) (st : AllocatorState) : Prop :=
  st.frameworks = u.frameworks ∧
  (st.refusers M = u.refusers M ∨
    allRefused (u.refusers M) u.frameworks = true) ∧
  ((∃ o, o ∈ st.offers ∧ o ∉ u.offers ∧ o.slave = M ∧ o.framework = T) →
    (T ∉ u.refusers M ∨ allRefused (u.refusers M) u.frameworks = true))

/-- C8: utils::numify returns an error result exactly when the lexical cast
fails, and otherwise returns the converted value; its return type is Try,
so the caught bad_lexical_cast never reaches the caller. -/
theorem numify_error_iff {α : Type} (conv : String → Option α) (s : String) :
    ((numify conv s).isError = true ↔ conv s = Option.none) ∧
    (∀ v, conv s = Option.some v → numify conv s = Try.some v) := by
  constructor
  · cases h : conv s <;> simp [numify, lexical_cast, h, Try.isError]
  · intro v hv
    simp [numify, lexical_cast, hv]

/-- Witness for numify_error_iff at a concrete conversion and string. -/
theorem numify_error_iff_witness :
    (((numify (fun t => t.toNat?) "42").isError = true ↔
        (fun t : String => t.toNat?) "42" = Option.none) ∧
      (∀ v, (fun t : String => t.toNat?) "42" = Option.some v →
        numify (fun t => t.toNat?) "42" = Try.some v)) :=
  numify_error_iff (fun t => t.toNat?) "42"

/-- C9: when the 4-byte size prefix read by utils::protobuf::read exceeds
10 MB, the function returns the corruption error and the file offset is
back at its value on entry. -/
theorem protobuf_read_size_limit (parse : List Nat → Bool) (fd : Fd)
    (h4 : 4 ≤ fd.bytes.length - fd.offset)
    (hsz : 10 * 1024 * 1024 < decodeU32 ((fd.bytes.drop fd.offset).take 4)) :
    (protobuf_read parse fd).1 =
        PResult.error "Size > 10 MB, possible corruption detected" ∧
      ((protobuf_read parse fd).2).offset = fd.offset := by
  have hlen : ((fd.bytes.drop fd.offset).take 4).length = 4 := by
    simp only [List.length_take, List.length_drop]
    omega
  constructor <;> simp [protobuf_read, readBytes, hlen, hsz]

/-- Witness for protobuf_read_size_limit on a file holding four 0xff bytes. -/
theorem protobuf_read_size_limit_witness :
    (4 ≤ (Fd.mk [255, 255, 255, 255] 0).bytes.length -
          (Fd.mk [255, 255, 255, 255] 0).offset) ∧
      (10 * 1024 * 1024 <
        decodeU32 (((Fd.mk [255, 255, 255, 255] 0).bytes.drop
          (Fd.mk [255, 255, 255, 255] 0).offset).take 4)) ∧
      ((protobuf_read (fun _ => true) (Fd.mk [255, 255, 255, 255] 0)).1 =
          PResult.error "Size > 10 MB, possible corruption detected" ∧
        ((protobuf_read (fun _ => true) (Fd.mk [255, 255, 255, 255] 0)).2).offset =
          (Fd.mk [255, 255, 255, 255] 0).offset) :=
  ⟨by decide, by decide,
    protobuf_read_size_limit (fun _ => true) (Fd.mk [255, 255, 255, 255] 0)
      (by decide) (by decide)⟩

/-- The mkdir loop succeeds exactly when every successive prefix is created
or already exists. -/
theorem mkdirLoop_true_iff (sys : String → MkdirOutcome) :
    ∀ (tokens : List String) (path : String),
    (mkdirLoop sys tokens path = true ↔
      ∀ p ∈ mkdirPrefixes tokens path,
        sys p = MkdirOutcome.ok ∨ sys p = MkdirOutcome.eexist) := by
  intro tokens
  induction tokens with
  | nil => intro path; simp [mkdirLoop, mkdirPrefixes]
  | cons t rest ih =>
      intro path
      cases h : sys (path ++ t) with
      | ok => simp [mkdirLoop, mkdirPrefixes, h, ih (path ++ t ++ "/")]
      | eexist => simp [mkdirLoop, mkdirPrefixes, h, ih (path ++ t ++ "/")]
      | err =>
          simp only [mkdirLoop, mkdirPrefixes, h, if_pos]
          constructor
          · intro hfalse; exact absurd hfalse (by simp)
          · intro hall
            have := hall (path ++ t) (by simp)
            simp [h] at this

/-- C10: utils::os::mkdir returns true if and only if every successive
prefix directory of the path is either newly created or already exists
(mkdir failing with EEXIST is not an error). -/
theorem mkdir_true_iff (sys : String → MkdirOutcome) (directory : String) :
    mkdir sys directory = true ↔
      ∀ p ∈ mkdirPrefixes (splitTokens directory)
          (if directory.startsWith "/" then "/" else ""),
        sys p = MkdirOutcome.ok ∨ sys p = MkdirOutcome.eexist :=
  mkdirLoop_true_iff sys (splitTokens directory)
    (if directory.startsWith "/" then "/" else "")

/-- Witness for mkdir_true_iff on a concrete file-system outcome map and
path. -/
theorem mkdir_true_iff_witness :
    mkdir (fun _ => MkdirOutcome.ok) "/tmp/a" = true ↔
      ∀ p ∈ mkdirPrefixes (splitTokens "/tmp/a")
          (if String.startsWith "/tmp/a" "/" then "/" else ""),
        (fun _ : String => MkdirOutcome.ok) p = MkdirOutcome.ok ∨
          (fun _ : String => MkdirOutcome.ok) p = MkdirOutcome.eexist :=
  mkdir_true_iff (fun _ => MkdirOutcome.ok) "/tmp/a"

/-- A tenant picked by the walk is in the ordering and not filtered. -/
theorem pickFirst_some_mem {l ref : List Nat} {t j : Nat}
    (h : pickFirst l ref = Option.some (t, j)) : t ∈ l ∧ t ∉ ref := by
  induction l generalizing j with
  | nil => simp [pickFirst] at h
  | cons a rest ih =>
      by_cases ha : a ∈ ref
      · rw [pickFirst, if_pos ha] at h
        cases hp : pickFirst rest ref with
        | none => rw [hp] at h; exact absurd h (by simp)
        | some p =>
            obtain ⟨u, k⟩ := p
            rw [hp] at h
            simp only [Option.some_inj, Prod.mk.injEq] at h
            obtain ⟨hu, _⟩ := h
            subst hu
            obtain ⟨hmem, hnm⟩ := ih hp
            exact ⟨List.mem_cons_of_mem a hmem, hnm⟩
      · rw [pickFirst, if_neg ha] at h
        simp only [Option.some_inj, Prod.mk.injEq] at h
        obtain ⟨ht, _⟩ := h
        subst ht
        exact ⟨List.mem_cons_self a rest, ha⟩

/-- On a nonempty ordering with no filter the walk picks the head at
position zero. -/
theorem pickFirst_nil_filter {l : List Nat} (h : l ≠ []) :
    ∃ t, pickFirst l [] = Option.some (t, 0) ∧ l.head? = Option.some t := by
  cases l with
  | nil => exact absurd rfl h
  | cons a rest => exact ⟨a, by simp [pickFirst], rfl⟩

/-- passNode does not change the slave list. -/
theorem passNode_slaves (st : AllocatorState) (n : Nat) :
    (passNode st n).slaves = st.slaves := by
  unfold passNode
  split
  · rfl
  · split <;> rfl

/-- passNode does not change the framework list. -/
theorem passNode_frameworks (st : AllocatorState) (n : Nat) :
    (passNode st n).frameworks = st.frameworks := by
  unfold passNode
  split
  · rfl
  · split <;> rfl

/-- passNode does not change total capacities. -/
theorem passNode_total (st : AllocatorState) (n : Nat) :
    (passNode st n).total = st.total := by
  unfold passNode
  split
  · rfl
  · split <;> rfl

/-- passNode does not change task consumption. -/
theorem passNode_consumed (st : AllocatorState) (n : Nat) :
    (passNode st n).consumed = st.consumed := by
  unfold passNode
  split
  · rfl
  · split <;> rfl

/-- passNode touches only the free capacity of its own slave. -/
theorem passNode_free_other (st : AllocatorState) {m n : Nat} (h : m ≠ n) :
    (passNode st n).free m = st.free m := by
  unfold passNode
  split
  · rfl
  · split
    · rfl
    · simp [fupd, h]

/-- passNode touches only the refusal set of its own slave. -/
theorem passNode_refusers_other (st : AllocatorState) {m n : Nat} (h : m ≠ n) :
    (passNode st n).refusers m = st.refusers m := by
  unfold passNode
  split
  · rfl
  · split <;> simp [fupd, h]

/-- passNode never drops an outstanding offer. -/
theorem passNode_offers_mono (st : AllocatorState) (n : Nat) {o : SlotOffer}
    (h : o ∈ st.offers) : o ∈ (passNode st n).offers := by
  unfold passNode
  split
  · exact h
  · split
    · exact h
    · exact List.mem_append_left _ h

/-- passNode never decreases the fresh-offer counter. -/
theorem passNode_nextOfferId_le (st : AllocatorState) (n : Nat) :
    st.nextOfferId ≤ (passNode st n).nextOfferId := by
  unfold passNode
  split
  · exact Nat.le_refl _
  · split
    · exact Nat.le_refl _
    · exact Nat.le_succ _

/-- Anatomy of an offer created by passNode: it is for this slave, carves
the entire positive free capacity, carries the fresh identity, and goes to
a tenant the effective refusal set does not filter. -/
theorem passNode_new_offer (st : AllocatorState) (n : Nat) {o : SlotOffer}
    (h : o ∈ (passNode st n).offers) (hnew : o ∉ st.offers) :
    o.slave = n ∧ o.slice = st.free n ∧ 0 < o.slice ∧
      o.oid = st.nextOfferId ∧
      o.framework ∉ effectiveRefusers st n ∧
      o.framework ∈ getAllocationOrdering st.frameworks st.rotation := by
  unfold passNode at h
  by_cases hf : st.free n ≤ 0
  · rw [if_pos hf] at h
    exact absurd h hnew
  · rw [if_neg hf] at h
    revert h
    split
    · intro h; exact absurd h hnew
    · rename_i t j hpick
      intro h
      rcases List.mem_append.mp h with h | h
      · exact absurd h hnew
      · have := List.mem_singleton.mp h
        subst this
        obtain ⟨hmem, hnm⟩ := pickFirst_some_mem hpick
        refine ⟨rfl, rfl, ?_, rfl, hnm, hmem⟩
        show (0 : Int) < st.free n
        omega

/-- A sum of slices over offers with non-negative slices is non-negative. -/
theorem sumSlices_nonneg {l : List SlotOffer} (h : ∀ o ∈ l, 0 ≤ o.slice) :
    0 ≤ sumSlices l := by
  induction l with
  | nil => simp [sumSlices]
  | cons a rest ih =>
      have ha := h a (List.mem_cons_self a rest)
      have hr := ih (fun o ho => h o (List.mem_cons_of_mem a ho))
      simp only [sumSlices, List.map_cons, List.sum_cons] at *
      omega

/-- Removing one offer removes exactly its slice from any filtered sum. -/
theorem sumSlices_filter_erase (l : List SlotOffer) (o : SlotOffer)
    (h : o ∈ l) (p : SlotOffer → Bool) :
    sumSlices (l.filter p) =
      (if p o then o.slice else 0) + sumSlices ((l.erase o).filter p) := by
  have hperm : List.Perm (l.filter p) ((o :: l.erase o).filter p) :=
    (List.perm_cons_erase h).filter p
  have hsum : sumSlices (l.filter p) = sumSlices ((o :: l.erase o).filter p) := by
    unfold sumSlices
    exact (hperm.map _).sum_eq
  rw [hsum]
  by_cases hpo : p o <;> simp [List.filter_cons, hpo, sumSlices]

/-- A filtered sum splits along any second predicate. -/
theorem sumSlices_filter_partition (l : List SlotOffer) (p q : SlotOffer → Bool) :
    sumSlices (l.filter q) =
      sumSlices ((l.filter p).filter q) +
        sumSlices ((l.filter (fun o => !(p o))).filter q) := by
  induction l with
  | nil => simp [sumSlices]
  | cons a rest ih =>
      by_cases hp : p a <;> by_cases hq : q a <;>
        simp only [List.filter_cons, hp, hq, Bool.not_true, Bool.not_false,
          if_pos, if_neg, Bool.false_eq_true, not_false_eq_true, ite_true,
          ite_false, sumSlices, List.map_cons, List.sum_cons] at * <;>
        omega

/-- A state with no offers on an absent slave has nothing offered there. -/
theorem filter_slave_absent {s : AllocatorState}
    (h4 : ∀ o ∈ s.offers, o.slave ∈ s.slaves ∧ 0 < o.slice) {n : Nat}
    (hn : n ∉ s.slaves) :
    s.offers.filter (fun o => o.slave == n) = [] := by
  rw [List.filter_eq_nil_iff]
  intro o ho
  have := (h4 o ho).1
  simp only [beq_iff_eq]
  intro he
  rw [he] at this
  exact hn this

/-- The pass on one slave moves capacity only between the free field and
the offered pool: their sum per slave is untouched. -/
theorem passNode_free_add_offered (st : AllocatorState) (n m : Nat) :
    (passNode st n).free m + offeredOn (passNode st n) m
      = st.free m + offeredOn st m := by
  unfold passNode
  by_cases hf : st.free n ≤ 0
  · rw [if_pos hf]
  · rw [if_neg hf]
    cases hpick : pickFirst (getAllocationOrdering st.frameworks st.rotation)
        (effectiveRefusers st n) with
    | none => rfl
    | some p =>
        obtain ⟨t, j⟩ := p
        dsimp only
        by_cases hmn : m = n
        · subst hmn
          have hb : ((⟨st.nextOfferId, t, m, st.free m⟩ : SlotOffer).slave == m)
              = true := by simp
          simp only [offeredOn, List.filter_append, List.filter_cons, hb,
            List.filter_nil, sumSlices, List.map_append, List.map_cons,
            List.map_nil, List.sum_append, List.sum_cons, List.sum_nil,
            fupd, if_pos rfl]
          simp only [ite_true, List.map_cons, List.map_nil, List.sum_cons,
            List.sum_nil]
          omega
        · have hb : ((⟨st.nextOfferId, t, n, st.free n⟩ : SlotOffer).slave == m)
              = false := by
            simp only [beq_eq_false_iff_ne, ne_eq]
            exact fun he => hmn he.symm
          simp only [offeredOn, List.filter_append, List.filter_cons, hb,
            List.filter_nil, List.append_nil, fupd, if_neg hmn]
          simp

/-- The pass on one slave leaves each free capacity unchanged or zeroed. -/
theorem passNode_free_cases (st : AllocatorState) (n m : Nat) :
    (passNode st n).free m = st.free m ∨ (passNode st n).free m = 0 := by
  unfold passNode
  by_cases hf : st.free n ≤ 0
  · rw [if_pos hf]; left; rfl
  · rw [if_neg hf]
    cases hpick : pickFirst (getAllocationOrdering st.frameworks st.rotation)
        (effectiveRefusers st n) with
    | none => left; rfl
    | some p =>
        obtain ⟨t, j⟩ := p
        dsimp only
        by_cases hmn : m = n
        · right; simp [fupd, hmn]
        · left; simp [fupd, hmn]

/-- The offer-generation step on one live slave preserves the engine
invariant. -/
theorem passNode_inv {st : AllocatorState} {n : Nat} (hn : n ∈ st.slaves)
    (h : EngineInv st) : EngineInv (passNode st n) := by
  obtain ⟨h1, h2, h3, h4⟩ := h
  refine ⟨?_, ?_, ?_, ?_⟩
  · intro m hm
    rw [passNode_slaves] at hm
    have := passNode_free_add_offered st n m
    rw [passNode_consumed, passNode_total]
    have hold := h1 m hm
    omega
  · intro m hm
    rw [passNode_slaves] at hm
    rcases passNode_free_cases st n m with he | he
    · rw [he]; exact h2 m hm
    · rw [he]
  · intro m hm
    rw [passNode_slaves] at hm
    rw [passNode_consumed]
    exact h3 m hm
  · intro o ho
    rw [passNode_slaves]
    by_cases hold : o ∈ st.offers
    · exact h4 o hold
    · obtain ⟨hs, hsl, hpos, _, _, _⟩ := passNode_new_offer st n ho hold
      rw [hs]
      exact ⟨hn, hpos⟩

/-- Folding the per-slave pass over live slaves preserves the invariant. -/
theorem foldl_passNode_inv :
    ∀ (l : List Nat) (st : AllocatorState),
      (∀ n ∈ l, n ∈ st.slaves) → EngineInv st →
      EngineInv (l.foldl passNode st)
  | [], _, _, h => h
  | n :: rest, st, hl, h => by
      have hn := hl n (List.mem_cons_self n rest)
      apply foldl_passNode_inv rest
      · intro m hm
        rw [passNode_slaves]
        exact hl m (List.mem_cons_of_mem n hm)
      · exact passNode_inv hn h

/-- The full offer-generation pass preserves the invariant. -/
theorem makeNewOffers_inv {st : AllocatorState} (h : EngineInv st) :
    EngineInv (makeNewOffers st) :=
  foldl_passNode_inv st.slaves st (fun _ hn => hn) h

/-- Dropping the offers of one slave does not change what is offered on a
different slave. -/
theorem filter_slave_stable (l : List SlotOffer) {m n : Nat} (hmn : m ≠ n) :
    (l.filter (fun o => !(o.slave == n))).filter (fun o => o.slave == m)
      = l.filter (fun o => o.slave == m) := by
  induction l with
  | nil => rfl
  | cons a rest ih =>
      by_cases ham : a.slave = m
      · have h1 : (a.slave == m) = true := by simp [ham]
        have h2 : (!(a.slave == n)) = true := by
          simp only [Bool.not_eq_true', beq_eq_false_iff_ne, ne_eq, ham]
          exact hmn
        simp only [List.filter_cons, h1, h2, ite_true, ih]
      · have h1 : (a.slave == m) = false := by
          simp only [beq_eq_false_iff_ne, ne_eq]
          exact ham
        by_cases han : a.slave = n
        · have h2 : (!(a.slave == n)) = false := by simp [han]
          simp only [List.filter_cons, h1, h2, Bool.false_eq_true, ite_false, ih]
        · have h2 : (!(a.slave == n)) = true := by
            simp only [Bool.not_eq_true', beq_eq_false_iff_ne, ne_eq]
            exact han
          simp only [List.filter_cons, h1, h2, Bool.false_eq_true, ite_false,
            ite_true, ih]

/-- Reading an updated function at the updated key. -/
theorem fupd_same {α : Type} (f : Nat → α) (n : Nat) (v : α) :
    fupd f n v n = v := by
  simp [fupd]

/-- Reading an updated function at any other key. -/
theorem fupd_other {α : Type} (f : Nat → α) {m n : Nat} (v : α) (h : m ≠ n) :
    fupd f n v m = f m := by
  simp [fupd, h]

/-- Every event handler, applied under its precondition, preserves the
engine invariant. -/
theorem applyEvent_inv {e : Event} {s : AllocatorState}
    (hp : precond e s = true) (h : EngineInv s) : EngineInv (applyEvent e s) := by
  obtain ⟨h1, h2, h3, h4⟩ := h
  cases e with
  | frameworkAdded f => exact ⟨h1, h2, h3, h4⟩
  | offersRevived f => exact ⟨h1, h2, h3, h4⟩
  | timerTick => exact ⟨h1, h2, h3, h4⟩
  | slaveAdded n cap =>
      simp only [precond, Bool.and_eq_true, Bool.not_eq_true',
        decide_eq_false_iff_not, decide_eq_true_eq] at hp
      obtain ⟨hn, hcap⟩ := hp
      simp only [applyEvent, EngineInv]
      refine ⟨?_, ?_, ?_, ?_⟩
      · intro m hm
        rcases List.mem_append.mp hm with hms | hmn
        · have hne : m ≠ n := fun he => hn (he ▸ hms)
          simp only [offeredOn, fupd_other _ _ hne]
          exact h1 m hms
        · have hme := List.mem_singleton.mp hmn
          subst hme
          have hz : s.offers.filter (fun o => o.slave == m) = [] :=
            filter_slave_absent h4 hn
          simp only [offeredOn, fupd_same, hz]
          simp [sumSlices]
      · intro m hm
        rcases List.mem_append.mp hm with hms | hmn
        · have hne : m ≠ n := fun he => hn (he ▸ hms)
          rw [fupd_other _ _ hne]
          exact h2 m hms
        · have hme := List.mem_singleton.mp hmn
          subst hme
          rw [fupd_same]
          exact hcap
      · intro m hm
        rcases List.mem_append.mp hm with hms | hmn
        · have hne : m ≠ n := fun he => hn (he ▸ hms)
          rw [fupd_other _ _ hne]
          exact h3 m hms
        · have hme := List.mem_singleton.mp hmn
          subst hme
          rw [fupd_same]
      · intro o ho
        exact ⟨List.mem_append_left _ (h4 o ho).1, (h4 o ho).2⟩
  | slaveRemoved n =>
      simp only [applyEvent, EngineInv]
      refine ⟨?_, ?_, ?_, ?_⟩
      · intro m hm
        obtain ⟨hms, hmb⟩ := List.mem_filter.mp hm
        have hmn : m ≠ n := by
          simp only [Bool.not_eq_true', beq_eq_false_iff_ne, ne_eq] at hmb
          exact hmb
        simp only [offeredOn, filter_slave_stable _ hmn]
        exact h1 m hms
      · intro m hm
        exact h2 m (List.mem_filter.mp hm).1
      · intro m hm
        exact h3 m (List.mem_filter.mp hm).1
      · intro o ho
        obtain ⟨hos, hob⟩ := List.mem_filter.mp ho
        have hsn : o.slave ≠ n := by
          simp only [Bool.not_eq_true', beq_eq_false_iff_ne, ne_eq] at hob
          exact hob
        refine ⟨List.mem_filter.mpr ⟨(h4 o hos).1, ?_⟩, (h4 o hos).2⟩
        simp only [Bool.not_eq_true', beq_eq_false_iff_ne, ne_eq]
        exact hsn
  | taskRemoved t =>
      simp only [precond, Bool.and_eq_true, decide_eq_true_eq] at hp
      obtain ⟨⟨hts, htp⟩, htc⟩ := hp
      simp only [applyEvent, EngineInv]
      refine ⟨?_, ?_, ?_, ?_⟩
      · intro m hm
        have hold := h1 m hm
        by_cases hmt : m = t.slave
        · subst hmt
          simp only [offeredOn, fupd_same]
          simp only [offeredOn] at hold
          omega
        · simp only [offeredOn, fupd_other _ _ hmt]
          exact hold
      · intro m hm
        by_cases hmt : m = t.slave
        · subst hmt
          have := h2 _ hm
          rw [fupd_same]
          omega
        · rw [fupd_other _ _ hmt]
          exact h2 m hm
      · intro m hm
        by_cases hmt : m = t.slave
        · subst hmt
          rw [fupd_same]
          omega
        · rw [fupd_other _ _ hmt]
          exact h3 m hm
      · exact h4
  | offerReturned o reason left =>
      simp only [precond, Bool.and_eq_true, decide_eq_true_eq] at hp
      obtain ⟨⟨hos, hl0⟩, hls⟩ := hp
      have hpos := (h4 o hos).2
      cases reason with
      | decline =>
          simp only [applyEvent, EngineInv, ite_true, if_pos]
          refine ⟨?_, ?_, ?_, ?_⟩
          · intro m hm
            have hold := h1 m hm
            have hsplit := sumSlices_filter_erase s.offers o hos
              (fun x => x.slave == m)
            simp only [offeredOn] at hold ⊢
            by_cases hmo : m = o.slave
            · subst hmo
              simp only [beq_self_eq_true, ite_true] at hsplit
              simp only [fupd_same]
              omega
            · have hb : (o.slave == m) = false := by
                simp only [beq_eq_false_iff_ne, ne_eq]
                exact fun he => hmo he.symm
              simp only [hb, Bool.false_eq_true, ite_false] at hsplit
              have hne : m ≠ o.slave := hmo
              simp only [fupd_other _ _ hne]
              omega
          · intro m hm
            by_cases hmo : m = o.slave
            · subst hmo
              have := h2 _ hm
              rw [fupd_same]
              omega
            · rw [fupd_other _ _ hmo]
              exact h2 m hm
          · intro m hm
            by_cases hmo : m = o.slave
            · subst hmo
              have := h3 _ hm
              rw [fupd_same]
              omega
            · rw [fupd_other _ _ hmo]
              exact h3 m hm
          · intro x hx
            exact h4 x (List.mem_of_mem_erase hx)
      | rescind =>
          simp only [applyEvent, EngineInv, reduceCtorEq, ite_false]
          refine ⟨?_, ?_, ?_, ?_⟩
          · intro m hm
            have hold := h1 m hm
            have hsplit := sumSlices_filter_erase s.offers o hos
              (fun x => x.slave == m)
            simp only [offeredOn] at hold ⊢
            by_cases hmo : m = o.slave
            · subst hmo
              simp only [beq_self_eq_true, ite_true] at hsplit
              simp only [fupd_same]
              omega
            · have hb : (o.slave == m) = false := by
                simp only [beq_eq_false_iff_ne, ne_eq]
                exact fun he => hmo he.symm
              simp only [hb, Bool.false_eq_true, ite_false] at hsplit
              simp only [fupd_other _ _ hmo]
              omega
          · intro m hm
            by_cases hmo : m = o.slave
            · subst hmo
              have := h2 _ hm
              rw [fupd_same]
              omega
            · rw [fupd_other _ _ hmo]
              exact h2 m hm
          · intro m hm
            exact h3 m hm
          · intro x hx
            exact h4 x (List.mem_of_mem_erase hx)
  | frameworkRemoved f =>
      simp only [applyEvent, EngineInv]
      refine ⟨?_, ?_, ?_, ?_⟩
      · intro m hm
        have hold := h1 m hm
        have hsplit := sumSlices_filter_partition s.offers
          (fun o => o.framework == f) (fun o => o.slave == m)
        simp only [offeredOn] at hold ⊢
        omega
      · intro m hm
        have hnn : 0 ≤ sumSlices
            ((s.offers.filter (fun o => o.framework == f)).filter
              (fun o => o.slave == m)) := by
          apply sumSlices_nonneg
          intro x hx
          have hxs : x ∈ s.offers :=
            List.mem_of_mem_filter (List.mem_of_mem_filter hx)
          have := (h4 x hxs).2
          omega
        have := h2 _ hm
        omega
      · intro m hm
        exact h3 m hm
      · intro x hx
        have hxs : x ∈ s.offers := List.mem_of_mem_filter hx
        exact h4 x hxs

/-- One engine step preserves the invariant. -/
theorem step_inv (e : Event) {s : AllocatorState} (h : EngineInv s) :
    EngineInv (step e s) := by
  unfold step
  by_cases hp : precond e s = true
  · rw [if_pos hp]
    by_cases ht : triggersPass e = true
    · rw [if_pos ht]
      exact makeNewOffers_inv (applyEvent_inv hp h)
    · rw [if_neg ht]
      exact applyEvent_inv hp h
  · rw [if_neg hp]
    exact h

/-- The fresh allocator satisfies the invariant. -/
theorem initState_inv : EngineInv initState := by
  refine ⟨?_, ?_, ?_, ?_⟩ <;> intro x hx <;> simp [initState] at hx

/-- Every state reached by a finite event sequence satisfies the
invariant. -/
theorem runEvents_inv (es : List Event) : EngineInv (runEvents es) := by
  suffices hgen : ∀ (l : List Event) (s : AllocatorState), EngineInv s →
      EngineInv (l.foldl (fun u e => step e u) s) by
    exact hgen es initState initState_inv
  intro l
  induction l with
  | nil => intro s h; exact h
  | cons e rest ih =>
      intro s h
      exact ih (step e s) (step_inv e h)

/-- C1: after every finite sequence of engine events from the fresh
allocator, each live node satisfies the conservation law: free capacity
plus resources in outstanding offers plus task-consumed resources equals
the node total capacity. -/
theorem conservation_after_events (es : List Event) (n : Nat)
    (hn : n ∈ (runEvents es).slaves) :
    (runEvents es).free n + offeredOn (runEvents es) n +
        (runEvents es).consumed n = (runEvents es).total n :=
  (runEvents_inv es).1 n hn

/-- Witness for conservation_after_events: add one slave of capacity 4,
register a framework (the pass hands it the whole slave), and check the
ledger of slave 0. -/
theorem conservation_after_events_witness :
    0 ∈ (runEvents [Event.slaveAdded 0 4, Event.frameworkAdded 7]).slaves ∧
      (runEvents [Event.slaveAdded 0 4, Event.frameworkAdded 7]).free 0 +
          offeredOn (runEvents [Event.slaveAdded 0 4, Event.frameworkAdded 7]) 0 +
          (runEvents [Event.slaveAdded 0 4, Event.frameworkAdded 7]).consumed 0 =
        (runEvents [Event.slaveAdded 0 4, Event.frameworkAdded 7]).total 0 :=
  ⟨by decide,
    conservation_after_events [Event.slaveAdded 0 4, Event.frameworkAdded 7] 0
      (by decide)⟩

/-- C4: after every finite sequence of engine events, free capacity is
never negative, and the capacity carved into outstanding offers together
with the remaining free capacity never exceeds the node total: a slice
handed to an offer is debited from free capacity and cannot be offered
again until the offer is returned. -/
theorem no_double_offer (es : List Event) (n : Nat)
    (hn : n ∈ (runEvents es).slaves) :
    0 ≤ (runEvents es).free n ∧
      (runEvents es).free n + offeredOn (runEvents es) n ≤
        (runEvents es).total n := by
  obtain ⟨h1, h2, h3, _⟩ := runEvents_inv es
  have hc := h1 n hn
  have hf := h2 n hn
  have hcc := h3 n hn
  exact ⟨hf, by omega⟩

/-- Witness for no_double_offer after a slave addition, an offer and a
partial decline. -/
theorem no_double_offer_witness :
    0 ∈ (runEvents [Event.slaveAdded 0 4, Event.frameworkAdded 7,
          Event.offerReturned ⟨0, 7, 0, 4⟩ OfferReturnReason.decline 1]).slaves ∧
      (0 ≤ (runEvents [Event.slaveAdded 0 4, Event.frameworkAdded 7,
            Event.offerReturned ⟨0, 7, 0, 4⟩ OfferReturnReason.decline 1]).free 0 ∧
        (runEvents [Event.slaveAdded 0 4, Event.frameworkAdded 7,
            Event.offerReturned ⟨0, 7, 0, 4⟩ OfferReturnReason.decline 1]).free 0 +
            offeredOn (runEvents [Event.slaveAdded 0 4, Event.frameworkAdded 7,
              Event.offerReturned ⟨0, 7, 0, 4⟩ OfferReturnReason.decline 1]) 0 ≤
          (runEvents [Event.slaveAdded 0 4, Event.frameworkAdded 7,
            Event.offerReturned ⟨0, 7, 0, 4⟩ OfferReturnReason.decline 1]).total 0) :=
  ⟨by decide,
    no_double_offer [Event.slaveAdded 0 4, Event.frameworkAdded 7,
      Event.offerReturned ⟨0, 7, 0, 4⟩ OfferReturnReason.decline 1] 0 (by decide)⟩

/-- C5: the allocation ordering lists every active tenant exactly once (no
tenant twice), and under the strict round-robin policy the tenant at
position i of the ordering for rotation pointer r is the tenant at index
(i + r) modulo the tenant count: each pass begins where the previous
iteration left the pointer and cycles through all active tenants once. -/
theorem getAllocationOrdering_round_robin (fws : List Nat) (r : Nat)
    (h : fws.Nodup) :
    (getAllocationOrdering fws r).Nodup ∧
      (∀ f, (getAllocationOrdering fws r).count f = if f ∈ fws then 1 else 0) ∧
      (∀ i, i < fws.length →
        (getAllocationOrdering fws r).get? i = fws.get? ((i + r) % fws.length)) := by
  have hperm : List.Perm (getAllocationOrdering fws r) fws :=
    List.rotate_perm fws (r % fws.length)
  refine ⟨hperm.nodup_iff.mpr h, ?_, ?_⟩
  · intro f
    rw [hperm.count_eq]
    by_cases hm : f ∈ fws
    · rw [if_pos hm]
      exact List.count_eq_one_of_mem h hm
    · rw [if_neg hm]
      exact List.count_eq_zero_of_not_mem hm
  · intro i hi
    unfold getAllocationOrdering
    rw [List.get?_rotate hi]
    rw [Nat.add_mod_mod]

/-- Witness for getAllocationOrdering_round_robin on three tenants with
rotation pointer 5. -/
theorem getAllocationOrdering_round_robin_witness :
    (getAllocationOrdering [1, 2, 3] 5).Nodup ∧
      (∀ f, (getAllocationOrdering [1, 2, 3] 5).count f =
        if f ∈ [1, 2, 3] then 1 else 0) ∧
      (∀ i, i < ([1, 2, 3] : List Nat).length →
        (getAllocationOrdering [1, 2, 3] 5).get? i =
          ([1, 2, 3] : List Nat).get? ((i + 5) % ([1, 2, 3] : List Nat).length)) :=
  getAllocationOrdering_round_robin [1, 2, 3] 5 (by decide)

/-- C7: the allocation ordering is a pure function of the active tenant
collection and the rotation pointer: equal inputs give the identical
ordered sequence. -/
theorem getAllocationOrdering_deterministic (f1 f2 : List Nat) (r1 r2 : Nat)
    (hf : f1 = f2) (hr : r1 = r2) :
    getAllocationOrdering f1 r1 = getAllocationOrdering f2 r2 := by
  rw [hf, hr]

/-- Witness for getAllocationOrdering_deterministic at a concrete tenant
list and rotation. -/
theorem getAllocationOrdering_deterministic_witness :
    getAllocationOrdering [4, 9] 3 = getAllocationOrdering [4, 9] 3 :=
  getAllocationOrdering_deterministic [4, 9] [4, 9] 3 3 rfl rfl

/-- C6: returning an outstanding offer with reason decline records the
offer framework as a refuser of the contributing slave and credits the
unused portion back to that slave free capacity; reason rescind credits
the full slice and records no refusal; both remove the offer and both
rows of the event table trigger an offer-generation pass. -/
theorem offerReturned_spec (s : AllocatorState) (o : SlotOffer) (left : Int)
    (ho : o ∈ s.offers) :
    (o.framework ∈ (applyEvent (Event.offerReturned o
          OfferReturnReason.decline left) s).refusers o.slave ∧
      (applyEvent (Event.offerReturned o OfferReturnReason.decline left) s).free
          o.slave = s.free o.slave + left ∧
      (applyEvent (Event.offerReturned o OfferReturnReason.decline left) s).offers
        = s.offers.erase o) ∧
    ((applyEvent (Event.offerReturned o OfferReturnReason.rescind left) s).free
          o.slave = s.free o.slave + o.slice ∧
      (applyEvent (Event.offerReturned o OfferReturnReason.rescind left) s).refusers
        = s.refusers ∧
      (applyEvent (Event.offerReturned o OfferReturnReason.rescind left) s).offers
        = s.offers.erase o) ∧
    triggersPass (Event.offerReturned o OfferReturnReason.decline left) = true ∧
    triggersPass (Event.offerReturned o OfferReturnReason.rescind left) = true := by
  refine ⟨⟨?_, ?_, rfl⟩, ⟨?_, ?_, rfl⟩, rfl, rfl⟩
  · simp only [applyEvent, ite_true, if_pos, fupd_same, insertRefuser]
    by_cases hmem : o.framework ∈ s.refusers o.slave
    · simp [hmem]
    · simp [hmem]
  · simp only [applyEvent, ite_true, if_pos]
    rw [fupd_same]
  · simp only [applyEvent, reduceCtorEq, ite_false]
    rw [fupd_same]
  · simp only [applyEvent, reduceCtorEq, ite_false]

/-- Witness for offerReturned_spec on a one-slave, one-framework state with
one outstanding offer. -/
theorem offerReturned_spec_witness :
    (SlotOffer.mk 0 7 0 4) ∈ (AllocatorState.mk [0] (fun _ => 4) (fun _ => 0) (fun _ => 0) [7] (fun _ => []) [SlotOffer.mk 0 7 0 4] 1 1).offers ∧
    (((SlotOffer.mk 0 7 0 4).framework ∈ (applyEvent (Event.offerReturned (SlotOffer.mk 0 7 0 4)
          OfferReturnReason.decline 1) (AllocatorState.mk [0] (fun _ => 4) (fun _ => 0) (fun _ => 0) [7] (fun _ => []) [SlotOffer.mk 0 7 0 4] 1 1)).refusers (SlotOffer.mk 0 7 0 4).slave ∧
      (applyEvent (Event.offerReturned (SlotOffer.mk 0 7 0 4) OfferReturnReason.decline 1) (AllocatorState.mk [0] (fun _ => 4) (fun _ => 0) (fun _ => 0) [7] (fun _ => []) [SlotOffer.mk 0 7 0 4] 1 1)).free
          (SlotOffer.mk 0 7 0 4).slave = (AllocatorState.mk [0] (fun _ => 4) (fun _ => 0) (fun _ => 0) [7] (fun _ => []) [SlotOffer.mk 0 7 0 4] 1 1).free (SlotOffer.mk 0 7 0 4).slave + 1 ∧
      (applyEvent (Event.offerReturned (SlotOffer.mk 0 7 0 4) OfferReturnReason.decline 1) (AllocatorState.mk [0] (fun _ => 4) (fun _ => 0) (fun _ => 0) [7] (fun _ => []) [SlotOffer.mk 0 7 0 4] 1 1)).offers
        = (AllocatorState.mk [0] (fun _ => 4) (fun _ => 0) (fun _ => 0) [7] (fun _ => []) [SlotOffer.mk 0 7 0 4] 1 1).offers.erase (SlotOffer.mk 0 7 0 4)) ∧
    ((applyEvent (Event.offerReturned (SlotOffer.mk 0 7 0 4) OfferReturnReason.rescind 1) (AllocatorState.mk [0] (fun _ => 4) (fun _ => 0) (fun _ => 0) [7] (fun _ => []) [SlotOffer.mk 0 7 0 4] 1 1)).free
          (SlotOffer.mk 0 7 0 4).slave = (AllocatorState.mk [0] (fun _ => 4) (fun _ => 0) (fun _ => 0) [7] (fun _ => []) [SlotOffer.mk 0 7 0 4] 1 1).free (SlotOffer.mk 0 7 0 4).slave + (SlotOffer.mk 0 7 0 4).slice ∧
      (applyEvent (Event.offerReturned (SlotOffer.mk 0 7 0 4) OfferReturnReason.rescind 1) (AllocatorState.mk [0] (fun _ => 4) (fun _ => 0) (fun _ => 0) [7] (fun _ => []) [SlotOffer.mk 0 7 0 4] 1 1)).refusers
        = (AllocatorState.mk [0] (fun _ => 4) (fun _ => 0) (fun _ => 0) [7] (fun _ => []) [SlotOffer.mk 0 7 0 4] 1 1).refusers ∧
      (applyEvent (Event.offerReturned (SlotOffer.mk 0 7 0 4) OfferReturnReason.rescind 1) (AllocatorState.mk [0] (fun _ => 4) (fun _ => 0) (fun _ => 0) [7] (fun _ => []) [SlotOffer.mk 0 7 0 4] 1 1)).offers
        = (AllocatorState.mk [0] (fun _ => 4) (fun _ => 0) (fun _ => 0) [7] (fun _ => []) [SlotOffer.mk 0 7 0 4] 1 1).offers.erase (SlotOffer.mk 0 7 0 4)) ∧
    triggersPass (Event.offerReturned (SlotOffer.mk 0 7 0 4) OfferReturnReason.decline 1) = true ∧
    triggersPass (Event.offerReturned (SlotOffer.mk 0 7 0 4) OfferReturnReason.rescind 1) = true) :=
  ⟨by decide, offerReturned_spec (AllocatorState.mk [0] (fun _ => 4) (fun _ => 0) (fun _ => 0) [7] (fun _ => []) [SlotOffer.mk 0 7 0 4] 1 1) (SlotOffer.mk 0 7 0 4) 1 (by decide)⟩

/-- When a pass step creates an offer, the fresh-identity counter advances. -/
theorem passNode_created_id (st : AllocatorState) (n : Nat) {o : SlotOffer}
    (h : o ∈ (passNode st n).offers) (hnew : o ∉ st.offers) :
    (passNode st n).nextOfferId = st.nextOfferId + 1 := by
  unfold passNode at h ⊢
  by_cases hf : st.free n ≤ 0
  · rw [if_pos hf] at h
    exact absurd h hnew
  · rw [if_neg hf] at h ⊢
    revert h
    split
    · intro h; exact absurd h hnew
    · intro _; rfl

/-- The pass step keeps every offer identity below the counter. -/
theorem passNode_idBound {st : AllocatorState}
    (hb : ∀ o ∈ st.offers, o.oid < st.nextOfferId) (n : Nat) :
    ∀ o ∈ (passNode st n).offers, o.oid < (passNode st n).nextOfferId := by
  intro o ho
  by_cases hold : o ∈ st.offers
  · exact lt_of_lt_of_le (hb o hold) (passNode_nextOfferId_le st n)
  · obtain ⟨_, _, _, hoid, _, _⟩ := passNode_new_offer st n ho hold
    rw [passNode_created_id st n ho hold, hoid]
    exact Nat.lt_succ_self _

/-- Folding the pass never drops an offer. -/
theorem foldl_passNode_offers_mono :
    ∀ (l : List Nat) (st : AllocatorState) {o : SlotOffer},
      o ∈ st.offers → o ∈ (l.foldl passNode st).offers
  | [], _, _, h => h
  | n :: rest, st, o, h =>
      foldl_passNode_offers_mono rest (passNode st n)
        (passNode_offers_mono st n h)

/-- Folding the pass over other slaves leaves this slave free capacity. -/
theorem foldl_passNode_free_not_mem :
    ∀ (l : List Nat) (st : AllocatorState) {N : Nat}, N ∉ l →
      (l.foldl passNode st).free N = st.free N
  | [], _, _, _ => rfl
  | n :: rest, st, N, h => by
      have hNn : N ≠ n := fun he => h (he ▸ List.mem_cons_self n rest)
      have hrest : N ∉ rest := fun hr => h (List.mem_cons_of_mem n hr)
      rw [List.foldl_cons,
        foldl_passNode_free_not_mem rest (passNode st n) hrest,
        passNode_free_other st hNn]

/-- Folding the pass over other slaves leaves this slave refusal set. -/
theorem foldl_passNode_refusers_not_mem :
    ∀ (l : List Nat) (st : AllocatorState) {N : Nat}, N ∉ l →
      (l.foldl passNode st).refusers N = st.refusers N
  | [], _, _, _ => rfl
  | n :: rest, st, N, h => by
      have hNn : N ≠ n := fun he => h (he ▸ List.mem_cons_self n rest)
      have hrest : N ∉ rest := fun hr => h (List.mem_cons_of_mem n hr)
      rw [List.foldl_cons,
        foldl_passNode_refusers_not_mem rest (passNode st n) hrest,
        passNode_refusers_other st hNn]

/-- Folding the pass does not change the framework list. -/
theorem foldl_passNode_frameworks :
    ∀ (l : List Nat) (st : AllocatorState),
      (l.foldl passNode st).frameworks = st.frameworks
  | [], _ => rfl
  | n :: rest, st => by
      rw [List.foldl_cons, foldl_passNode_frameworks rest (passNode st n),
        passNode_frameworks st n]

/-- Folding the pass never decreases the fresh-identity counter. -/
theorem foldl_passNode_nextOfferId_le :
    ∀ (l : List Nat) (st : AllocatorState),
      st.nextOfferId ≤ (l.foldl passNode st).nextOfferId
  | [], _ => Nat.le_refl _
  | n :: rest, st =>
      Nat.le_trans (passNode_nextOfferId_le st n)
        (foldl_passNode_nextOfferId_le rest (passNode st n))

/-- Folding the pass keeps every offer identity below the counter. -/
theorem foldl_passNode_idBound :
    ∀ (l : List Nat) (st : AllocatorState),
      (∀ o ∈ st.offers, o.oid < st.nextOfferId) →
      ∀ o ∈ (l.foldl passNode st).offers, o.oid < (l.foldl passNode st).nextOfferId
  | [], _, hb => hb
  | n :: rest, st, hb =>
      foldl_passNode_idBound rest (passNode st n) (passNode_idBound hb n)

/-- A slave whose every active tenant refuses, with positive free capacity
and at least one active tenant, gets its refusal set cleared and a fresh
offer from the pass step. -/
theorem passNode_all_refused {st : AllocatorState} {n : Nat}
    (hfree : 0 < st.free n) (hfw : st.frameworks ≠ [])
    (hall : allRefused (st.refusers n) st.frameworks = true) :
    (passNode st n).refusers n = [] ∧
      ∃ o, o ∈ (passNode st n).offers ∧ o.oid = st.nextOfferId ∧ o.slave = n := by
  have heff : effectiveRefusers st n = [] := by
    simp [effectiveRefusers, hall]
  have hone : getAllocationOrdering st.frameworks st.rotation ≠ [] := by
    unfold getAllocationOrdering
    intro he
    apply hfw
    have := congrArg List.length he
    rw [List.length_rotate] at this
    exact List.length_eq_zero.mp this
  obtain ⟨t, hpick, _⟩ := pickFirst_nil_filter hone
  unfold passNode
  rw [if_neg (by omega), heff, hpick]
  refine ⟨?_, ⟨st.nextOfferId, t, n, st.free n⟩, ?_, rfl, rfl⟩
  · dsimp only
    rw [fupd_same]
  · dsimp only
    exact List.mem_append_right _ (List.mem_singleton.mpr rfl)

/-- C3: a slave with positive free capacity that every member of a
non-empty active tenant set has refused is not skipped: the next
offer-generation pass clears its refusal set and still builds an offer for
it. -/
theorem all_refused_clears_and_offers (s : AllocatorState) (N : Nat)
    (hN : N ∈ s.slaves) (hnd : s.slaves.Nodup)
    (hfree : 0 < s.free N) (hfw : s.frameworks ≠ [])
    (hall : ∀ f ∈ s.frameworks, f ∈ s.refusers N)
    (hid : ∀ o ∈ s.offers, o.oid < s.nextOfferId) :
    (makeNewOffers s).refusers N = [] ∧
      ∃ o, o ∈ (makeNewOffers s).offers ∧ o ∉ s.offers ∧ o.slave = N := by
  obtain ⟨l1, l2, hsp⟩ := List.append_of_mem hN
  have hnd2 : (l1 ++ N :: l2).Nodup := hsp ▸ hnd
  obtain ⟨hnda, hndc, hdisj⟩ := List.nodup_append.mp hnd2
  have hN1 : N ∉ l1 := fun hmem => hdisj hmem (List.mem_cons_self N l2)
  have hN2 : N ∉ l2 := (List.nodup_cons.mp hndc).1
  have hfree1 : (l1.foldl passNode s).free N = s.free N :=
    foldl_passNode_free_not_mem l1 s hN1
  have href1 : (l1.foldl passNode s).refusers N = s.refusers N :=
    foldl_passNode_refusers_not_mem l1 s hN1
  have hfw1 : (l1.foldl passNode s).frameworks = s.frameworks :=
    foldl_passNode_frameworks l1 s
  have hid1 : ∀ o ∈ (l1.foldl passNode s).offers,
      o.oid < (l1.foldl passNode s).nextOfferId :=
    foldl_passNode_idBound l1 s hid
  have hle1 : s.nextOfferId ≤ (l1.foldl passNode s).nextOfferId :=
    foldl_passNode_nextOfferId_le l1 s
  have hallb : allRefused ((l1.foldl passNode s).refusers N)
      (l1.foldl passNode s).frameworks = true := by
    rw [href1, hfw1]
    simp only [allRefused, List.all_eq_true, decide_eq_true_eq]
    exact hall
  obtain ⟨hclr, o, hoin, hoid, hosl⟩ :=
    passNode_all_refused (by rw [hfree1]; exact hfree)
      (by rw [hfw1]; exact hfw) hallb
  have hrun : makeNewOffers s = l2.foldl passNode (passNode (l1.foldl passNode s) N) := by
    unfold makeNewOffers
    rw [hsp, List.foldl_append, List.foldl_cons]
  constructor
  · rw [hrun, foldl_passNode_refusers_not_mem l2 _ hN2, hclr]
  · refine ⟨o, ?_, ?_, hosl⟩
    · rw [hrun]
      exact foldl_passNode_offers_mono l2 _ hoin
    · intro habs
      have hlt := hid o habs
      omega

/-- Witness for all_refused_clears_and_offers: one slave with capacity 4
whose both active tenants refuse it. -/
theorem all_refused_clears_and_offers_witness :
    (0 ∈ (AllocatorState.mk [0] (fun _ => 4) (fun _ => 4) (fun _ => 0) [1, 2]
        (fun _ => [1, 2]) [] 0 0).slaves) ∧
    ((AllocatorState.mk [0] (fun _ => 4) (fun _ => 4) (fun _ => 0) [1, 2]
        (fun _ => [1, 2]) [] 0 0).slaves.Nodup) ∧
    (0 < (AllocatorState.mk [0] (fun _ => 4) (fun _ => 4) (fun _ => 0) [1, 2]
        (fun _ => [1, 2]) [] 0 0).free 0) ∧
    ((makeNewOffers (AllocatorState.mk [0] (fun _ => 4) (fun _ => 4)
          (fun _ => 0) [1, 2] (fun _ => [1, 2]) [] 0 0)).refusers 0 = [] ∧
      ∃ o, o ∈ (makeNewOffers (AllocatorState.mk [0] (fun _ => 4) (fun _ => 4)
          (fun _ => 0) [1, 2] (fun _ => [1, 2]) [] 0 0)).offers ∧
        o ∉ (AllocatorState.mk [0] (fun _ => 4) (fun _ => 4) (fun _ => 0)
          [1, 2] (fun _ => [1, 2]) [] 0 0).offers ∧ o.slave = 0) :=
  ⟨by decide, by decide, by decide,
    all_refused_clears_and_offers
      (AllocatorState.mk [0] (fun _ => 4) (fun _ => 4) (fun _ => 0) [1, 2]
        (fun _ => [1, 2]) [] 0 0) 0
      (by decide) (by decide) (by decide) (by decide)
      (by decide) (by decide)⟩

/-- The refusal set a pass step leaves on its own slave: untouched, or the
effective (possibly cleared) set. -/
theorem passNode_refusers_self (st : AllocatorState) (n : Nat) :
    (passNode st n).refusers n = st.refusers n ∨
      (passNode st n).refusers n = effectiveRefusers st n := by
  unfold passNode
  by_cases hf : st.free n ≤ 0
  · rw [if_pos hf]; left; rfl
  · rw [if_neg hf]
    split
    · right; dsimp only; rw [fupd_same]
    · right; dsimp only; rw [fupd_same]

/-- Recording a refusal keeps all previously recorded refusers. -/
theorem insertRefuser_mem_mono {a f : Nat} {l : List Nat} (h : a ∈ l) :
    a ∈ insertRefuser f l := by
  unfold insertRefuser
  split
  · exact h
  · exact List.mem_append_left _ h

/-- One pass step preserves the refusal bookkeeping. -/
theorem passNode_RefInv {u st : AllocatorState} {M T : Nat} (n : Nat)
    (h : RefInv u M T st) : RefInv u M T (passNode st n) := by
  obtain ⟨hfw, href, hoff⟩ := h
  refine ⟨by rw [passNode_frameworks]; exact hfw, ?_, ?_⟩
  · by_cases hnM : n = M
    · subst hnM
      rcases passNode_refusers_self st n with he | he
      · rw [he]; exact href
      · rw [he]
        unfold effectiveRefusers
        by_cases har : allRefused (st.refusers n) st.frameworks = true
        · rw [if_pos har]
          rcases href with he2 | hP
          · right; rw [← he2, ← hfw]; exact har
          · right; exact hP
        · rw [if_neg har]
          exact href
    · rw [passNode_refusers_other st (fun he => hnM he.symm)]
      exact href
  · rintro ⟨o, ho, hnu, hsl, hfr⟩
    by_cases hold : o ∈ st.offers
    · exact hoff ⟨o, hold, hnu, hsl, hfr⟩
    · obtain ⟨hslv, _, _, _, hnref, _⟩ := passNode_new_offer st n ho hold
      have hnM : n = M := by rw [← hslv, hsl]
      subst hnM
      unfold effectiveRefusers at hnref
      by_cases har : allRefused (st.refusers n) st.frameworks = true
      · rcases href with he2 | hP
        · right; rw [← he2, ← hfw]; exact har
        · right; exact hP
      · rw [if_neg har] at hnref
        rcases href with he2 | hP
        · left
          rw [← he2]
          rw [← hfr]
          exact hnref
        · right; exact hP

/-- The whole pass preserves the refusal bookkeeping. -/
theorem foldl_passNode_RefInv {u : AllocatorState} {M T : Nat} :
    ∀ (l : List Nat) (st : AllocatorState),
      RefInv u M T st → RefInv u M T (l.foldl passNode st)
  | [], _, h => h
  | n :: rest, st, h =>
      foldl_passNode_RefInv rest (passNode st n) (passNode_RefInv n h)

/-- An offer of slave M to tenant T newly created by an offer-generation
pass implies T was not in the recorded refusal set of M at the start of
the pass, or every active tenant was (the all-refused clear). -/
theorem makeNewOffers_new_offer_refuser (u : AllocatorState) {M T : Nat}
    (h : ∃ o, o ∈ (makeNewOffers u).offers ∧ o ∉ u.offers ∧
      o.slave = M ∧ o.framework = T) :
    T ∉ u.refusers M ∨ allRefused (u.refusers M) u.frameworks = true := by
  have base : RefInv u M T u :=
    ⟨rfl, Or.inl rfl, fun ⟨o, ho, hnu, _, _⟩ => absurd ho hnu⟩
  exact (foldl_passNode_RefInv u.slaves u base).2.2 h

/-- No event handler invents an outstanding offer: the bookkeeping step
only keeps or drops offers. -/
theorem applyEvent_offers_subset (e : Event) (s : AllocatorState) :
    ∀ o ∈ (applyEvent e s).offers, o ∈ s.offers := by
  cases e with
  | frameworkAdded f => intro o ho; exact ho
  | frameworkRemoved f => intro o ho; exact List.mem_of_mem_filter ho
  | slaveAdded n cap => intro o ho; exact ho
  | slaveRemoved n => intro o ho; exact List.mem_of_mem_filter ho
  | taskRemoved t => intro o ho; exact ho
  | offerReturned o2 reason left2 => intro o ho; exact List.mem_of_mem_erase ho
  | offersRevived f => intro o ho; exact ho
  | timerTick => intro o ho; exact ho

/-- C2: once tenant T is in the refusal set of node N, an engine step can
hand a new offer of N to T only if the bookkeeping of that very event
raised the free capacity of N, or the event was an explicit revival of T,
or at the moment of the offer-generation pass every active tenant was in
the refusal set of N. -/
theorem refusal_suppression (s : AllocatorState) (e : Event) (T N : Nat)
    (hT : T ∈ s.refusers N) (hN : N ∈ s.slaves)
    (hnew : ∃ o, o ∈ (step e s).offers ∧ o ∉ s.offers ∧
      o.slave = N ∧ o.framework = T) :
    s.free N < (applyEvent e s).free N ∨ e = Event.offersRevived T ∨
      allRefused ((applyEvent e s).refusers N)
        (applyEvent e s).frameworks = true := by
  obtain ⟨o, ho, hnu, hsl, hfr⟩ := hnew
  unfold step at ho
  by_cases hp : precond e s = true
  swap
  · rw [if_neg hp] at ho
    exact absurd ho hnu
  rw [if_pos hp] at ho
  by_cases ht : triggersPass e = true
  swap
  · rw [if_neg ht] at ho
    exact absurd (applyEvent_offers_subset e s o ho) hnu
  rw [if_pos ht] at ho
  by_cases hu : o ∈ (applyEvent e s).offers
  · exact absurd (applyEvent_offers_subset e s o hu) hnu
  have hkey := makeNewOffers_new_offer_refuser (applyEvent e s)
    ⟨o, ho, hu, hsl, hfr⟩
  rcases hkey with hnotref | har
  · cases e with
    | frameworkAdded f => exact absurd hT hnotref
    | frameworkRemoved f => exact absurd ht (by simp [triggersPass])
    | slaveRemoved n => exact absurd ht (by simp [triggersPass])
    | slaveAdded n cap =>
        simp only [precond, Bool.and_eq_true, Bool.not_eq_true',
          decide_eq_false_iff_not, decide_eq_true_eq] at hp
        have hne : N ≠ n := fun he => hp.1 (he ▸ hN)
        have hru : (applyEvent (Event.slaveAdded n cap) s).refusers N
            = s.refusers N := by
          show fupd s.refusers n [] N = s.refusers N
          exact fupd_other _ _ hne
        rw [hru] at hnotref
        exact absurd hT hnotref
    | taskRemoved t =>
        by_cases hts : t.slave = N
        · left
          simp only [precond, Bool.and_eq_true, decide_eq_true_eq] at hp
          obtain ⟨⟨_, htp⟩, _⟩ := hp
          show s.free N < fupd s.free t.slave (s.free t.slave + t.slice) N
          rw [hts, fupd_same]
          omega
        · have hru : (applyEvent (Event.taskRemoved t) s).refusers N
              = s.refusers N := by
            show fupd s.refusers t.slave [] N = s.refusers N
            exact fupd_other _ _ (fun he => hts he.symm)
          rw [hru] at hnotref
          exact absurd hT hnotref
    | offerReturned o2 reason left2 =>
        cases reason with
        | rescind =>
            have hru : (applyEvent (Event.offerReturned o2
                OfferReturnReason.rescind left2) s).refusers N
                = s.refusers N := by
              simp [applyEvent]
            rw [hru] at hnotref
            exact absurd hT hnotref
        | decline =>
            by_cases hsl2 : N = o2.slave
            · have hru : (applyEvent (Event.offerReturned o2
                  OfferReturnReason.decline left2) s).refusers N
                  = insertRefuser o2.framework (s.refusers o2.slave) := by
                simp [applyEvent, fupd, hsl2]
              rw [hru] at hnotref
              apply absurd _ hnotref
              rw [← hsl2]
              exact insertRefuser_mem_mono hT
            · have hru : (applyEvent (Event.offerReturned o2
                  OfferReturnReason.decline left2) s).refusers N
                  = s.refusers N := by
                simp [applyEvent, fupd, hsl2]
              rw [hru] at hnotref
              exact absurd hT hnotref
    | offersRevived f =>
        by_cases hfT : f = T
        · right; left
          exact congrArg Event.offersRevived hfT
        · have hmem : T ∈ (s.refusers N).erase f :=
            (List.mem_erase_of_ne (fun he => hfT he.symm)).mpr hT
          exact absurd hmem hnotref
    | timerTick => exact absurd hT hnotref
  · right; right
    exact har

/-- Witness for refusal_suppression: tenant 1 has refused node 5 and is
explicitly revived; the triggered pass offers node 5 to tenant 1 again and
the theorem certifies the revival disjunct. -/
theorem refusal_suppression_witness :
    1 ∈ (AllocatorState.mk [5] (fun _ => 4) (fun _ => 4) (fun _ => 0) [1, 2] (fun _ => [1]) [] 0 0).refusers 5 ∧
    5 ∈ (AllocatorState.mk [5] (fun _ => 4) (fun _ => 4) (fun _ => 0) [1, 2] (fun _ => [1]) [] 0 0).slaves ∧
    (∃ o, o ∈ (step (Event.offersRevived 1) (AllocatorState.mk [5] (fun _ => 4) (fun _ => 4) (fun _ => 0) [1, 2] (fun _ => [1]) [] 0 0)).offers ∧ o ∉ (AllocatorState.mk [5] (fun _ => 4) (fun _ => 4) (fun _ => 0) [1, 2] (fun _ => [1]) [] 0 0).offers ∧
      o.slave = 5 ∧ o.framework = 1) ∧
    ((AllocatorState.mk [5] (fun _ => 4) (fun _ => 4) (fun _ => 0) [1, 2] (fun _ => [1]) [] 0 0).free 5 < (applyEvent (Event.offersRevived 1) (AllocatorState.mk [5] (fun _ => 4) (fun _ => 4) (fun _ => 0) [1, 2] (fun _ => [1]) [] 0 0)).free 5 ∨
      (Event.offersRevived 1) = Event.offersRevived 1 ∨
      allRefused ((applyEvent (Event.offersRevived 1) (AllocatorState.mk [5] (fun _ => 4) (fun _ => 4) (fun _ => 0) [1, 2] (fun _ => [1]) [] 0 0)).refusers 5)
        (applyEvent (Event.offersRevived 1) (AllocatorState.mk [5] (fun _ => 4) (fun _ => 4) (fun _ => 0) [1, 2] (fun _ => [1]) [] 0 0)).frameworks = true) :=
  ⟨by decide, by decide,
    ⟨SlotOffer.mk 0 1 5 4, by decide, by decide, rfl, rfl⟩,
    refusal_suppression (AllocatorState.mk [5] (fun _ => 4) (fun _ => 4) (fun _ => 0) [1, 2] (fun _ => [1]) [] 0 0) (Event.offersRevived 1) 1 5 (by decide) (by decide)
      ⟨SlotOffer.mk 0 1 5 4, by decide, by decide, rfl, rfl⟩⟩
